import Mathlib

/-!
# FlowForge Visual Pipeline Builder — backend core, shallow embedding

This file embeds the algorithmic core of `src/main.py`:

* the Pydantic models `Node`, `Edge`, `Pipeline`;
* `is_dag` (Kahn's algorithm over Python dicts keyed by declared node ids);
* the `/pipelines/parse` handler `parse_pipeline`.

Python dicts are modelled as insertion-ordered association lists
(`List (String × α)`); a lookup of a missing key is a `KeyError`, so the
edge-processing phase and the work-queue loop are `Option`-valued and a
raised `KeyError` surfaces as `none`.  Python integers are unbounded, so
in-degree counters are `Int`.  The unbounded `while queue:` loop is run
with explicit fuel; `is_dag` supplies fuel `nodes.length`, and the loop
is proved to need no more (each node is enqueued at most once).
-/

namespace FlowForge

/-- `Node` model from `src/main.py`.  The Python model also carries
`type`, `position` and `data` fields; `is_dag` and `parse_pipeline` read
only `id`, so the core-irrelevant metadata is not represented. -/
structure Node where
  id : String
deriving Repr, DecidableEq

/-- `Edge` model from `src/main.py` (`source`, `target`, `id`). -/
structure Edge where
  source : String
  target : String
  id : String
deriving Repr, DecidableEq

/-- `Pipeline` model from `src/main.py`. -/
structure Pipeline where
  nodes : List Node
  edges : List Edge
deriving Repr, DecidableEq

/-! ## Python `dict` with string keys, as an insertion-ordered association list -/

/-- `d[k]`, returning `none` where Python raises `KeyError`. -/
def dictFind (d : List (String × α)) (k : String) : Option α :=
  match d with
  | [] => none
  | (k', v) :: rest => if k' = k then some v else dictFind rest k

/-- `d[k] = v` for a key already present: the value is replaced in place,
the key keeps its position.  (Absent keys are untouched; the embedding
only writes to keys it has just looked up successfully.) -/
def dictSet (d : List (String × α)) (k : String) (v : α) : List (String × α) :=
  d.map (fun p => if p.1 = k then (k, v) else p)

/-- One binding step of a Python dict comprehension `{key: value, ...}`:
an existing key keeps its position and gets the new value, a new key is
appended at the end. -/
def dictInsert (d : List (String × α)) (k : String) (v : α) : List (String × α) :=
  if (dictFind d k).isSome then dictSet d k v else d ++ [(k, v)]

/-- `{k: v for k in keys}`. -/
def dictInit (keys : List String) (v : α) : List (String × α) :=
  keys.foldl (fun d k => dictInsert d k v) []

/-- The key list of a dict, in insertion order (`d.keys()`). -/
def dictKeys (d : List (String × α)) : List String :=
  d.map Prod.fst

/-! ## `is_dag` (src/main.py lines 40–74) -/

/-- Lines 53–55: one iteration of
`for edge in edges: adj_list[edge.source].append(edge.target);
in_degree[edge.target] += 1`; `none` is the `KeyError` raised when an
edge endpoint is not a declared node id. -/
def addEdgeStep (adj : List (String × List String)) (deg : List (String × Int))
    (e : Edge) : Option (List (String × List String) × List (String × Int)) :=
  match dictFind adj e.source with
  | none => none
  | some succs =>
    let adj' := dictSet adj e.source (succs ++ [e.target])
    match dictFind deg e.target with
    | none => none
    | some d => some (adj', dictSet deg e.target (d + 1))

/-- The whole edge loop of lines 53–55. -/
def addEdges (adj : List (String × List String)) (deg : List (String × Int)) :
    List Edge → Option (List (String × List String) × List (String × Int))
  | [] => some (adj, deg)
  | e :: rest =>
    match addEdgeStep adj deg e with
    | none => none
    | some (adj', deg') => addEdges adj' deg' rest

/-- Lines 49–55: build `adj_list` and `in_degree` from the declared
nodes, then fold the edges in. -/
def buildMaps (nodes : List Node) (edges : List Edge) :
    Option (List (String × List String) × List (String × Int)) :=
  addEdges (dictInit (nodes.map Node.id) []) (dictInit (nodes.map Node.id) 0) edges

/-- Lines 67–71: `for neighbor in adj_list[current_node]: in_degree[neighbor] -= 1;
if in_degree[neighbor] == 0: queue.append(neighbor)`. -/
def processNeighbors (deg : List (String × Int)) (queue : List String) :
    List String → Option (List (String × Int) × List String)
  | [] => some (deg, queue)
  | nb :: rest =>
    match dictFind deg nb with
    | none => none
    | some d =>
      processNeighbors (dictSet deg nb (d - 1))
        (if d - 1 = 0 then queue ++ [nb] else queue) rest

/-- Lines 62–71: the `while queue:` loop, with explicit fuel.
`current_node = queue.pop(0)` is the head of the queue list;
`processed_count` is the accumulator `c`. -/
def kahnLoop (adj : List (String × List String)) :
    Nat → List (String × Int) → List String → Nat → Option Nat
  | _, _, [], c => some c
  | 0, _, _ :: _, _ => none
  | fuel + 1, deg, cur :: rest, c =>
    match dictFind adj cur with
    | none => none
    | some succs =>
      match processNeighbors deg rest succs with
      | none => none
      | some (deg', queue') => kahnLoop adj fuel deg' queue' (c + 1)

/-- `is_dag` with the loop fuel made explicit. -/
def is_dagAux (fuel : Nat) (nodes : List Node) (edges : List Edge) : Option Bool :=
  match buildMaps nodes edges with
  | none => none
  | some (adj, deg) =>
    match kahnLoop adj fuel deg ((deg.filter (fun p => p.2 == 0)).map Prod.fst) 0 with
    | none => none
    | some c => some (c == nodes.length)

/-- `is_dag(nodes, edges)` from `src/main.py`.  Line 58 seeds the queue
with the zero-in-degree keys in dict order; line 74 returns
`processed_count == len(nodes)`.  Fuel `nodes.length` is proved
sufficient below (`kahnLoop_fuel_irrelevant` together with the run
bound), so this is the Python loop, not an approximation of it. -/
def is_dag (nodes : List Node) (edges : List Edge) : Option Bool :=
  is_dagAux nodes.length nodes edges

/-- Analysis result returned by `/pipelines/parse` (src/main.py 88–92). -/
structure AnalysisResult where
  num_nodes : Nat
  num_edges : Nat
  is_dag : Bool
deriving Repr, DecidableEq

/-- `parse_pipeline` (src/main.py 76–92); `none` when `is_dag` raises. -/
def parse_pipeline (p : Pipeline) : Option AnalysisResult :=
  match is_dag p.nodes p.edges with
  | none => none
  | some b => some ⟨p.nodes.length, p.edges.length, b⟩

/-! ## Specification-side notions -/

/-- The edge relation of the submitted graph: `Step edges a b` holds when
some submitted edge goes from `a` to `b`. -/
def Step (edges : List Edge) (a b : String) : Prop :=
  ∃ e ∈ edges, e.source = a ∧ e.target = b

/-- The graph formed by the edges contains no directed cycle. -/
def Acyclic (edges : List Edge) : Prop :=
  ∀ a, ¬ Relation.TransGen (Step edges) a a

/-- All edge endpoints are declared node identifiers. -/
def WellFormed (nodes : List Node) (edges : List Edge) : Prop :=
  ∀ e ∈ edges, e.source ∈ nodes.map Node.id ∧ e.target ∈ nodes.map Node.id

instance : DecidablePred (fun p : List Node × List Edge => WellFormed p.1 p.2) :=
  fun p => by unfold WellFormed; infer_instance

instance (nodes : List Node) (edges : List Edge) :
    Decidable (WellFormed nodes edges) := by
  unfold WellFormed; infer_instance

/-- In-degree of `u` in the submitted multigraph, as the Python `int`. -/
def indeg (edges : List Edge) (u : String) : Int :=
  (edges.countP (fun e => e.target == u) : Int)

/-- Number of edge occurrences into `u` whose source is already in the
processed list `P`. -/
def inflow (edges : List Edge) (P : List String) (u : String) : Int :=
  (edges.countP (fun e => e.target == u && decide (e.source ∈ P)) : Int)

/-- Position of the first occurrence of `x` in a list (used to state that
the pop order of the Kahn loop is a topological order). -/
def posOf (x : String) : List String → Nat
  | [] => 0
  | y :: l => if y = x then 0 else posOf x l + 1

/-- The list `P` is a topological order of the edges whose target it
contains: the source appears, strictly earlier. -/
def Topo (edges : List Edge) (P : List String) : Prop :=
  ∀ e ∈ edges, e.target ∈ P → e.source ∈ P ∧ posOf e.source P < posOf e.target P

/-- Number of edge occurrences from `c` to `u`. -/
def edgeCount (E : List Edge) (c u : String) : Int :=
  (E.countP (fun e => e.source == c && e.target == u) : Int)

/-- Instrumented variant of `kahnLoop`: identical control flow, but it
returns the final in-degree map and the pop order `P` instead of the
count of pops. -/
def kahnRun (adj : List (String × List String)) :
    Nat → List (String × Int) → List String → List String →
      Option (List (String × Int) × List String)
  | _, deg, [], P => some (deg, P)
  | 0, _, _ :: _, _ => none
  | fuel + 1, deg, cur :: rest, P =>
    match dictFind adj cur with
    | none => none
    | some succs =>
      match processNeighbors deg rest succs with
      | none => none
      | some (deg', queue') => kahnRun adj fuel deg' queue' (P ++ [cur])

/-- Invariant holding at the head of every `while queue:` iteration.
`E` is the submitted edge list, `Kd` the (duplicate-free) key list of the
degree dict, `P` the list of already-popped nodes in pop order. -/
structure KInv (E : List Edge) (Kd : List String) (deg : List (String × Int))
    (queue P : List String) : Prop where
  keys : dictKeys deg = Kd
  degVal : ∀ u ∈ Kd, dictFind deg u = some (indeg E u - inflow E P u)
  nodupP : P.Nodup
  nodupQ : queue.Nodup
  disj : ∀ x ∈ queue, x ∉ P
  subP : ∀ x ∈ P, x ∈ Kd
  subQ : ∀ x ∈ queue, x ∈ Kd
  qEdges : ∀ u ∈ queue, ∀ e ∈ E, e.target = u → e.source ∈ P
  topo : Topo E P
  complete : ∀ u ∈ Kd, indeg E u - inflow E P u ≤ 0 → u ∈ P ∨ u ∈ queue

/-- The nodes of a simple directed cycle over the identifier list `l`
(spec §8: "graphs forming a simple directed cycle of length k"). -/
def cycleNodes (l : List String) : List Node :=
  l.map Node.mk

/-- The edges of the simple directed cycle over `l`: one edge from the
`i`-th identifier to the `(i+1 mod k)`-th, for each `i < k`. -/
def cycleEdges (l : List String) : List Edge :=
  (List.range l.length).map
    (fun i => Edge.mk (l.getD i "") (l.getD ((i + 1) % l.length) "") "")

/-! ## Dictionary lemmas -/

theorem dictFind_nil (k : String) : dictFind ([] : List (String × α)) k = none := rfl

theorem dictFind_cons (k' : String) (w : α) (rest : List (String × α)) (x : String) :
    dictFind ((k', w) :: rest) x = if k' = x then some w else dictFind rest x := rfl

theorem dictSet_cons (k' : String) (w : α) (rest : List (String × α)) (k : String) (v : α) :
    dictSet ((k', w) :: rest) k v =
      (if k' = k then (k, v) else (k', w)) :: dictSet rest k v := by
  simp [dictSet]

theorem dictKeys_nil : dictKeys ([] : List (String × α)) = [] := rfl

theorem dictKeys_cons (k' : String) (w : α) (rest : List (String × α)) :
    dictKeys ((k', w) :: rest) = k' :: dictKeys rest := rfl

theorem dictFind_dictSet (d : List (String × α)) (k x : String) (v : α) :
    dictFind (dictSet d k v) x =
      if k = x then (dictFind d k).map (fun _ => v) else dictFind d x := by
  induction d with
  | nil =>
    by_cases hkx : k = x <;> simp [dictFind, dictSet, hkx]
  | cons p rest ih =>
    obtain ⟨k', w⟩ := p
    rw [dictSet_cons]
    by_cases hk : k' = k <;> by_cases hx : k' = x <;>
      simp_all [dictFind_cons, eq_comm]

theorem dictKeys_dictSet (d : List (String × α)) (k : String) (v : α) :
    dictKeys (dictSet d k v) = dictKeys d := by
  induction d with
  | nil => rfl
  | cons p rest ih =>
    obtain ⟨k', w⟩ := p
    rw [dictSet_cons]
    by_cases hk : k' = k
    · rw [if_pos hk, dictKeys_cons, dictKeys_cons, ih, hk]
    · rw [if_neg hk, dictKeys_cons, dictKeys_cons, ih]

theorem dictFind_isSome_iff (d : List (String × α)) (k : String) :
    (dictFind d k).isSome = true ↔ k ∈ dictKeys d := by
  induction d with
  | nil => simp [dictFind, dictKeys]
  | cons p rest ih =>
    obtain ⟨k', w⟩ := p
    rw [dictFind_cons, dictKeys_cons]
    by_cases hx : k' = k
    · subst hx; simp
    · simp only [if_neg hx, List.mem_cons, ih]
      exact ⟨fun h => Or.inr h, fun h => h.elim (fun h1 => absurd h1.symm hx) id⟩

theorem dictFind_eq_none_iff (d : List (String × α)) (k : String) :
    dictFind d k = none ↔ k ∉ dictKeys d := by
  rw [← dictFind_isSome_iff]
  cases dictFind d k <;> simp

theorem dictFind_mem (d : List (String × α)) (k : String) (v : α)
    (h : dictFind d k = some v) : (k, v) ∈ d := by
  induction d with
  | nil => simp [dictFind] at h
  | cons p rest ih =>
    obtain ⟨k', w⟩ := p
    rw [dictFind_cons] at h
    by_cases hx : k' = k
    · rw [if_pos hx] at h
      obtain rfl : w = v := by simpa using h
      subst hx
      exact List.mem_cons_self _ _
    · rw [if_neg hx] at h
      exact List.mem_cons_of_mem _ (ih h)

theorem dictFind_of_mem (d : List (String × α)) (k : String) (v : α)
    (hnd : (dictKeys d).Nodup) (h : (k, v) ∈ d) : dictFind d k = some v := by
  induction d with
  | nil => simp at h
  | cons p rest ih =>
    obtain ⟨k', w⟩ := p
    rw [dictKeys_cons, List.nodup_cons] at hnd
    rw [dictFind_cons]
    rcases List.mem_cons.mp h with h1 | h1
    · have hk : k' = k := (congrArg Prod.fst h1).symm
      have hv : w = v := (congrArg Prod.snd h1).symm
      rw [if_pos hk, hv]
    · have hk : k' ≠ k := by
        intro he; subst he
        exact hnd.1 (by simpa [dictKeys] using List.mem_map_of_mem Prod.fst h1)
      rw [if_neg hk]
      exact ih hnd.2 h1

theorem dictFind_append (d₁ d₂ : List (String × α)) (k : String) :
    dictFind (d₁ ++ d₂) k =
      match dictFind d₁ k with
      | some v => some v
      | none => dictFind d₂ k := by
  induction d₁ with
  | nil => simp [dictFind]
  | cons p rest ih =>
    obtain ⟨k', w⟩ := p
    rw [List.cons_append, dictFind_cons, dictFind_cons]
    by_cases hx : k' = k
    · rw [if_pos hx, if_pos hx]
    · rw [if_neg hx, if_neg hx, ih]

theorem dictFind_dictInsert (d : List (String × α)) (k x : String) (v : α) :
    dictFind (dictInsert d k v) x = if k = x then some v else dictFind d x := by
  unfold dictInsert
  by_cases hs : (dictFind d k).isSome = true
  · rw [if_pos hs, dictFind_dictSet]
    obtain ⟨w, hw⟩ := Option.isSome_iff_exists.mp hs
    by_cases hkx : k = x
    · subst hkx; simp [hw]
    · simp [hkx]
  · rw [if_neg hs, dictFind_append]
    have hk : dictFind d k = none := by
      cases h : dictFind d k
      · rfl
      · exact absurd (by simp [h]) hs
    by_cases hkx : k = x
    · subst hkx; simp [hk, dictFind]
    · cases h : dictFind d x <;> simp [dictFind, hkx, hk, h]

theorem dictKeys_dictInsert (d : List (String × α)) (k : String) (v : α) :
    dictKeys (dictInsert d k v) = if k ∈ dictKeys d then dictKeys d else dictKeys d ++ [k] := by
  unfold dictInsert
  by_cases hs : (dictFind d k).isSome = true
  · rw [if_pos hs, dictKeys_dictSet, if_pos ((dictFind_isSome_iff d k).mp hs)]
  · rw [if_neg hs, if_neg (fun h => hs ((dictFind_isSome_iff d k).mpr h))]
    simp [dictKeys]

theorem dictKeys_dictInit_aux (ids : List String) (v : α) (d : List (String × α))
    (hnd : (dictKeys d).Nodup) :
    (dictKeys (ids.foldl (fun d k => dictInsert d k v) d)).Nodup ∧
      (∀ x, x ∈ dictKeys (ids.foldl (fun d k => dictInsert d k v) d) ↔
        x ∈ dictKeys d ∨ x ∈ ids) ∧
      (∀ x, dictFind (ids.foldl (fun d k => dictInsert d k v) d) x =
        if x ∈ ids then some v else dictFind d x) := by
  induction ids generalizing d with
  | nil => refine ⟨hnd, ?_, ?_⟩ <;> simp
  | cons k rest ih =>
    simp only [List.foldl_cons]
    have hnd' : (dictKeys (dictInsert d k v)).Nodup := by
      rw [dictKeys_dictInsert]
      by_cases hm : k ∈ dictKeys d
      · rw [if_pos hm]; exact hnd
      · rw [if_neg hm]
        exact List.Nodup.append hnd (List.nodup_singleton k)
          (fun x hx hmem => hm ((List.mem_singleton.mp hmem) ▸ hx))
    obtain ⟨h1, h2, h3⟩ := ih (dictInsert d k v) hnd'
    refine ⟨h1, fun x => ?_, fun x => ?_⟩
    · rw [h2 x, dictKeys_dictInsert]
      by_cases hm : k ∈ dictKeys d
      · simp only [if_pos hm, List.mem_cons]
        constructor
        · rintro (h | h)
          · exact Or.inl h
          · exact Or.inr (Or.inr h)
        · rintro (h | h | h)
          · exact Or.inl h
          · exact Or.inl (h ▸ hm)
          · exact Or.inr h
      · simp only [if_neg hm, List.mem_append, List.mem_singleton, List.mem_cons]
        tauto
    · rw [h3 x, dictFind_dictInsert]
      by_cases hr : x ∈ rest
      · simp [hr, List.mem_cons]
      · by_cases hkx : k = x
        · subst hkx; simp [hr]
        · have hxk : ¬x = k := fun h => hkx h.symm
          simp [hr, hkx, hxk, List.mem_cons]

theorem dictKeys_dictInit_nodup (ids : List String) (v : α) :
    (dictKeys (dictInit ids v)).Nodup :=
  (dictKeys_dictInit_aux ids v [] (by simp [dictKeys])).1

theorem mem_dictKeys_dictInit (ids : List String) (v : α) (x : String) :
    x ∈ dictKeys (dictInit ids v) ↔ x ∈ ids := by
  have := (dictKeys_dictInit_aux ids v [] (by simp [dictKeys])).2.1 x
  simpa [dictKeys] using this

theorem dictFind_dictInit (ids : List String) (v : α) (x : String) :
    dictFind (dictInit ids v) x = if x ∈ ids then some v else none := by
  have := (dictKeys_dictInit_aux ids v [] (by simp [dictKeys])).2.2 x
  simpa [dictFind] using this

/-! ## Position and counting lemmas -/

theorem posOf_append_left (x : String) (l₁ l₂ : List String) (h : x ∈ l₁) :
    posOf x (l₁ ++ l₂) = posOf x l₁ := by
  induction l₁ with
  | nil => simp at h
  | cons y rest ih =>
    rw [List.cons_append]
    by_cases hy : y = x
    · simp [posOf, hy]
    · have hx : x ∈ rest := by
        rcases List.mem_cons.mp h with h1 | h1
        · exact absurd h1.symm hy
        · exact h1
      simp [posOf, hy, ih hx]

theorem posOf_append_right (x : String) (l₁ l₂ : List String) (h : x ∉ l₁) :
    posOf x (l₁ ++ l₂) = l₁.length + posOf x l₂ := by
  induction l₁ with
  | nil => simp
  | cons y rest ih =>
    have hy : y ≠ x := fun he => h (he ▸ List.mem_cons_self y rest)
    have hx : x ∉ rest := fun hm => h (List.mem_cons_of_mem y hm)
    rw [List.cons_append]
    simp only [posOf, if_neg hy, ih hx, List.length_cons]
    omega

theorem countP_ext (l : List α) (p q : α → Bool) (h : ∀ a ∈ l, p a = q a) :
    l.countP p = l.countP q := by
  induction l with
  | nil => rfl
  | cons a rest ih =>
    rw [List.countP_cons, List.countP_cons,
      ih (fun b hb => h b (List.mem_cons_of_mem a hb)), h a (List.mem_cons_self a rest)]

theorem countP_disj (l : List α) (p q : α → Bool)
    (h : ∀ a ∈ l, ¬(p a = true ∧ q a = true)) :
    l.countP (fun a => p a || q a) = l.countP p + l.countP q := by
  induction l with
  | nil => rfl
  | cons a rest ih =>
    have ih' := ih (fun b hb => h b (List.mem_cons_of_mem a hb))
    have ha := h a (List.mem_cons_self a rest)
    rw [List.countP_cons, List.countP_cons, List.countP_cons, ih']
    cases hp : p a <;> cases hq : q a <;> simp_all <;> omega

theorem countP_lt_of_mem (l : List α) (p q : α → Bool)
    (hpq : ∀ a ∈ l, p a = true → q a = true)
    (e : α) (he : e ∈ l) (hqe : q e = true) (hpe : ¬ p e = true) :
    l.countP p < l.countP q := by
  induction l with
  | nil => simp at he
  | cons a rest ih =>
    rw [List.countP_cons, List.countP_cons]
    have hmono : rest.countP p ≤ rest.countP q :=
      List.countP_mono_left (fun b hb => hpq b (List.mem_cons_of_mem a hb))
    rcases List.mem_cons.mp he with h1 | h1
    · subst h1
      have hp : p e = false := by
        cases h : p e
        · rfl
        · exact absurd h hpe
      simp [hp, hqe]
      exact Nat.lt_succ_of_le hmono
    · have := ih (fun b hb => hpq b (List.mem_cons_of_mem a hb)) h1
      have ha : p a = true → q a = true := hpq a (List.mem_cons_self a rest)
      cases hp : p a <;> cases hq : q a <;> simp_all <;> try omega

/-! ## `indeg` / `inflow` lemmas -/

theorem indeg_nonneg (E : List Edge) (u : String) : 0 ≤ indeg E u := by
  simp [indeg]

theorem inflow_nil (E : List Edge) (u : String) : inflow E [] u = 0 := by
  unfold inflow
  rw [show (fun e : Edge => e.target == u && decide (e.source ∈ ([] : List String)))
      = fun _ => false from ?_]
  · simp [List.countP_false]
  · funext e; simp

theorem inflow_le_indeg (E : List Edge) (P : List String) (u : String) :
    inflow E P u ≤ indeg E u := by
  unfold inflow indeg
  have : E.countP (fun e => e.target == u && decide (e.source ∈ P)) ≤
      E.countP (fun e => e.target == u) :=
    List.countP_mono_left (fun e _ h => by
      cases h' : (e.target == u) <;> simp_all)
  exact_mod_cast this

theorem inflow_eq_indeg_of (E : List Edge) (P : List String) (u : String)
    (h : ∀ e ∈ E, e.target = u → e.source ∈ P) : inflow E P u = indeg E u := by
  unfold inflow indeg
  have : E.countP (fun e => e.target == u && decide (e.source ∈ P)) =
      E.countP (fun e => e.target == u) := by
    refine countP_ext E _ _ (fun e he => ?_)
    by_cases ht : e.target = u
    · simp [ht, h e he ht]
    · simp [ht]
  exact_mod_cast this

theorem exists_source_not_mem (E : List Edge) (P : List String) (u : String)
    (h : inflow E P u < indeg E u) : ∃ e ∈ E, e.target = u ∧ e.source ∉ P := by
  by_contra hc
  push_neg at hc
  exact absurd (inflow_eq_indeg_of E P u (fun e he ht => hc e he ht)) (by omega)

theorem all_sources_mem_of_inflow_eq (E : List Edge) (P : List String) (u : String)
    (h : inflow E P u = indeg E u) : ∀ e ∈ E, e.target = u → e.source ∈ P := by
  intro e he ht
  by_contra hc
  have : E.countP (fun e => e.target == u && decide (e.source ∈ P)) <
      E.countP (fun e => e.target == u) := by
    refine countP_lt_of_mem E _ _ (fun a _ ha => by
      cases h' : (a.target == u) <;> simp_all) e he (by simp [ht]) (by simp [ht, hc])
  have h2 : inflow E P u < indeg E u := by
    unfold inflow indeg
    exact_mod_cast this
  omega

theorem inflow_append_single (E : List Edge) (P : List String) (c u : String)
    (hc : c ∉ P) : inflow E (P ++ [c]) u = inflow E P u + edgeCount E c u := by
  unfold inflow edgeCount
  have : E.countP (fun e => e.target == u && decide (e.source ∈ P ++ [c])) =
      E.countP (fun e => e.target == u && decide (e.source ∈ P)) +
        E.countP (fun e => e.source == c && e.target == u) := by
    rw [← countP_disj E _ _ (fun e _ h => ?_)]
    · refine countP_ext E _ _ (fun e _ => ?_)
      by_cases ht : e.target = u <;> by_cases hp : e.source ∈ P <;>
        by_cases hcs : e.source = c <;> simp [ht, hp, hcs]
    · rcases h with ⟨h1, h2⟩
      have hp : e.source ∈ P := by
        cases hh : decide (e.source ∈ P)
        · simp [hh] at h1
        · exact of_decide_eq_true hh
      have hcs : e.source = c := by
        cases hh : (e.source == c)
        · simp [hh] at h2
        · exact of_decide_eq_true hh
      exact hc (hcs ▸ hp)
  push_cast [this]
  ring

theorem count_targets_eq_edgeCount (E : List Edge) (c u : String) :
    (((E.filter (fun e => e.source == c)).map Edge.target).count u : Int) =
      edgeCount E c u := by
  unfold edgeCount
  rw [List.count_eq_countP, List.countP_map, List.countP_filter]
  norm_cast
  refine countP_ext E _ _ (fun e _ => ?_)
  by_cases hs : e.source = c <;> by_cases ht : e.target = u <;>
    simp [hs, ht, Function.comp, Bool.and_comm]

/-! ## Edge-folding lemmas (lines 53–55) -/

theorem addEdgeStep_eq (adj : List (String × List String)) (deg : List (String × Int))
    (e : Edge) (succs : List String) (d0 : Int)
    (h1 : dictFind adj e.source = some succs) (h2 : dictFind deg e.target = some d0) :
    addEdgeStep adj deg e =
      some (dictSet adj e.source (succs ++ [e.target]), dictSet deg e.target (d0 + 1)) := by
  unfold addEdgeStep
  rw [h1, h2]

theorem addEdgeStep_none_src (adj : List (String × List String)) (deg : List (String × Int))
    (e : Edge) (h : dictFind adj e.source = none) : addEdgeStep adj deg e = none := by
  unfold addEdgeStep
  rw [h]

theorem addEdgeStep_none_tgt (adj : List (String × List String)) (deg : List (String × Int))
    (e : Edge) (succs : List String)
    (h1 : dictFind adj e.source = some succs) (h2 : dictFind deg e.target = none) :
    addEdgeStep adj deg e = none := by
  unfold addEdgeStep
  rw [h1, h2]

theorem addEdges_cons (adj : List (String × List String))
    (deg : List (String × Int)) (e : Edge) (rest : List Edge) :
    addEdges adj deg (e :: rest) =
      match addEdgeStep adj deg e with
      | none => none
      | some (adj', deg') => addEdges adj' deg' rest := rfl

theorem addEdges_cons_some (adj a : List (String × List String))
    (deg d : List (String × Int)) (e : Edge) (rest : List Edge)
    (h : addEdgeStep adj deg e = some (a, d)) :
    addEdges adj deg (e :: rest) = addEdges a d rest := by
  rw [addEdges_cons, h]

theorem addEdges_cons_none (adj : List (String × List String))
    (deg : List (String × Int)) (e : Edge) (rest : List Edge)
    (h : addEdgeStep adj deg e = none) :
    addEdges adj deg (e :: rest) = none := by
  rw [addEdges_cons, h]

theorem addEdges_spec : ∀ (l : List Edge) (adj : List (String × List String))
    (deg : List (String × Int)),
    (∀ e ∈ l, e.source ∈ dictKeys adj ∧ e.target ∈ dictKeys deg) →
    ∃ adj' deg', addEdges adj deg l = some (adj', deg') ∧
      dictKeys adj' = dictKeys adj ∧ dictKeys deg' = dictKeys deg ∧
      (∀ u s, dictFind adj u = some s →
        dictFind adj' u = some (s ++ (l.filter (fun e => e.source == u)).map Edge.target)) ∧
      (∀ u d, dictFind deg u = some d →
        dictFind deg' u = some (d + (l.countP (fun e => e.target == u) : Int))) := by
  intro l
  induction l with
  | nil =>
    intro adj deg _
    exact ⟨adj, deg, rfl, rfl, rfl, fun u s hs => by simp [hs], fun u d hd => by simp [hd]⟩
  | cons e rest ih =>
    intro adj deg hwf
    obtain ⟨hsrc, htgt⟩ := hwf e (List.mem_cons_self e rest)
    obtain ⟨succs, hsuccs⟩ := Option.isSome_iff_exists.mp ((dictFind_isSome_iff adj e.source).mpr hsrc)
    obtain ⟨d0, hd0⟩ := Option.isSome_iff_exists.mp ((dictFind_isSome_iff deg e.target).mpr htgt)
    have hstep := addEdgeStep_eq adj deg e succs d0 hsuccs hd0
    have hrun : addEdges adj deg (e :: rest) =
        addEdges (dictSet adj e.source (succs ++ [e.target]))
          (dictSet deg e.target (d0 + 1)) rest :=
      addEdges_cons_some _ _ _ _ _ _ hstep
    obtain ⟨adj', deg', hsome, hka, hkd, hfa, hfd⟩ :=
      ih (dictSet adj e.source (succs ++ [e.target])) (dictSet deg e.target (d0 + 1))
        (fun e' he' => by
          rw [dictKeys_dictSet, dictKeys_dictSet]
          exact hwf e' (List.mem_cons_of_mem e he'))
    refine ⟨adj', deg', hrun ▸ hsome, by rw [hka, dictKeys_dictSet],
      by rw [hkd, dictKeys_dictSet], ?_, ?_⟩
    · intro u s hs
      by_cases hu : e.source = u
      · subst hu
        have hs0 : succs = s := by rw [hsuccs] at hs; exact Option.some.inj hs
        subst hs0
        have h1 : dictFind (dictSet adj e.source (succs ++ [e.target])) e.source =
            some (succs ++ [e.target]) := by
          rw [dictFind_dictSet, if_pos rfl, hsuccs]; rfl
        rw [hfa _ _ h1]
        congr 1
        rw [List.filter_cons]
        have hbe : (e.source == e.source) = true := beq_self_eq_true e.source
        simp only [hbe, if_pos]
        rw [List.map_cons, List.append_assoc, List.singleton_append]
      · have h1 : dictFind (dictSet adj e.source (succs ++ [e.target])) u = some s := by
          rw [dictFind_dictSet, if_neg hu, hs]
        rw [hfa _ _ h1]
        congr 1
        rw [List.filter_cons]
        have : (e.source == u) = false := by simp [hu]
        simp [this]
    · intro u d hd
      by_cases hu : e.target = u
      · subst hu
        have hd0' : d0 = d := by rw [hd0] at hd; exact Option.some.inj hd
        subst hd0'
        have h1 : dictFind (dictSet deg e.target (d0 + 1)) e.target = some (d0 + 1) := by
          rw [dictFind_dictSet, if_pos rfl, hd0]; rfl
        rw [hfd _ _ h1]
        congr 1
        rw [List.countP_cons]
        have hbe : (e.target == e.target) = true := beq_self_eq_true e.target
        simp only [hbe, if_pos]
        push_cast
        ring
      · have h1 : dictFind (dictSet deg e.target (d0 + 1)) u = some d := by
          rw [dictFind_dictSet, if_neg hu, hd]
        rw [hfd _ _ h1]
        congr 1
        rw [List.countP_cons]
        have : (e.target == u) = false := by simp [hu]
        simp [this]

theorem addEdges_none : ∀ (l : List Edge) (adj : List (String × List String))
    (deg : List (String × Int)),
    (∃ e ∈ l, e.source ∉ dictKeys adj ∨ e.target ∉ dictKeys deg) →
    addEdges adj deg l = none := by
  intro l
  induction l with
  | nil =>
    intro adj deg h
    obtain ⟨e, he, _⟩ := h
    simp at he
  | cons e rest ih =>
    intro adj deg h
    by_cases hsrc : e.source ∈ dictKeys adj
    · obtain ⟨succs, hsuccs⟩ :=
        Option.isSome_iff_exists.mp ((dictFind_isSome_iff adj e.source).mpr hsrc)
      by_cases htgt : e.target ∈ dictKeys deg
      · obtain ⟨d0, hd0⟩ :=
          Option.isSome_iff_exists.mp ((dictFind_isSome_iff deg e.target).mpr htgt)
        rw [addEdges_cons_some _ _ _ _ _ _ (addEdgeStep_eq adj deg e succs d0 hsuccs hd0)]
        refine ih _ _ ?_
        obtain ⟨e', he', hbad⟩ := h
        rcases List.mem_cons.mp he' with h1 | h1
        · subst h1
          exact absurd hbad (by simp [hsrc, htgt])
        · exact ⟨e', h1, by rwa [dictKeys_dictSet, dictKeys_dictSet]⟩
      · have hgone : dictFind deg e.target = none := (dictFind_eq_none_iff _ _).mpr htgt
        exact addEdges_cons_none _ _ _ _ (addEdgeStep_none_tgt adj deg e succs hsuccs hgone)
    · have hgone : dictFind adj e.source = none := (dictFind_eq_none_iff _ _).mpr hsrc
      exact addEdges_cons_none _ _ _ _ (addEdgeStep_none_src adj deg e hgone)

/-! ## Inner-loop lemmas (lines 67–71) -/

theorem processNeighbors_cons (deg : List (String × Int)) (q : List String)
    (nb : String) (rest : List String) :
    processNeighbors deg q (nb :: rest) =
      match dictFind deg nb with
      | none => none
      | some d =>
        processNeighbors (dictSet deg nb (d - 1))
          (if d - 1 = 0 then q ++ [nb] else q) rest := rfl

theorem processNeighbors_spec : ∀ (l : List String) (deg : List (String × Int)) (q : List String),
    (∀ x ∈ l, x ∈ dictKeys deg) →
    ∃ deg' q', processNeighbors deg q l = some (deg', q') ∧
      dictKeys deg' = dictKeys deg ∧
      (∀ u d, dictFind deg u = some d → dictFind deg' u = some (d - (l.count u : Int))) ∧
      ∃ ext, q' = q ++ ext ∧ ∀ x ∈ ext, x ∈ l := by
  intro l
  induction l with
  | nil =>
    intro deg q _
    exact ⟨deg, q, rfl, rfl, fun u d hd => by simp [hd], [], by simp, by simp⟩
  | cons nb rest ih =>
    intro deg q hl
    obtain ⟨d, hd⟩ := Option.isSome_iff_exists.mp
      ((dictFind_isSome_iff deg nb).mpr (hl nb (List.mem_cons_self nb rest)))
    have hrest : ∀ x ∈ rest, x ∈ dictKeys (dictSet deg nb (d - 1)) := by
      rw [dictKeys_dictSet]
      exact fun x hx => hl x (List.mem_cons_of_mem nb hx)
    obtain ⟨deg', q', hsome, hk, hfd, ext, hq', hext⟩ :=
      ih (dictSet deg nb (d - 1)) (if d - 1 = 0 then q ++ [nb] else q) hrest
    have hrun : processNeighbors deg q (nb :: rest) = some (deg', q') := by
      rw [processNeighbors_cons, hd]
      exact hsome
    refine ⟨deg', q', hrun, by rw [hk, dictKeys_dictSet], ?_, ?_⟩
    · intro u d0 hd0
      by_cases hu : nb = u
      · subst hu
        have hdd : d = d0 := Option.some.inj (hd ▸ hd0)
        subst hdd
        have h1 : dictFind (dictSet deg nb (d - 1)) nb = some (d - 1) := by
          rw [dictFind_dictSet, if_pos rfl, hd]; rfl
        rw [hfd _ _ h1, List.count_cons_self]
        congr 1
        push_cast
        ring
      · have h1 : dictFind (dictSet deg nb (d - 1)) u = some d0 := by
          rw [dictFind_dictSet, if_neg hu, hd0]
        rw [hfd _ _ h1, List.count_cons_of_ne (fun h => hu h.symm)]
    · by_cases hz : d - 1 = 0
      · rw [if_pos hz] at hq'
        exact ⟨[nb] ++ ext, by rw [hq', List.append_assoc], fun x hx => by
          rcases List.mem_append.mp hx with h1 | h1
          · exact List.mem_cons.mpr (Or.inl (List.mem_singleton.mp h1))
          · exact List.mem_cons_of_mem nb (hext x h1)⟩
      · rw [if_neg hz] at hq'
        exact ⟨ext, hq', fun x hx => List.mem_cons_of_mem nb (hext x hx)⟩

theorem processNeighbors_queue_mono : ∀ (l : List String) (deg : List (String × Int))
    (q : List String) (deg' : List (String × Int)) (q' : List String),
    processNeighbors deg q l = some (deg', q') → ∀ x ∈ q, x ∈ q' := by
  intro l
  induction l with
  | nil =>
    intro deg q deg' q' h x hx
    obtain ⟨_, h2⟩ := Prod.mk.injEq .. ▸ Option.some.inj h
    exact h2 ▸ hx
  | cons nb rest ih =>
    intro deg q deg' q' h x hx
    rw [processNeighbors_cons] at h
    cases hd : dictFind deg nb with
    | none => rw [hd] at h; exact absurd h (by simp)
    | some d =>
      rw [hd] at h
      refine ih _ _ _ _ h x ?_
      by_cases hz : d - 1 = 0
      · rw [if_pos hz]; exact List.mem_append_left _ hx
      · rwa [if_neg hz]

theorem processNeighbors_cross : ∀ (l : List String) (deg : List (String × Int))
    (q : List String) (deg' : List (String × Int)) (q' : List String),
    processNeighbors deg q l = some (deg', q') →
    ∀ u d, dictFind deg u = some d → 0 < d → d - (l.count u : Int) ≤ 0 → u ∈ q' := by
  intro l
  induction l with
  | nil =>
    intro deg q deg' q' _ u d _ hpos hle
    simp at hle
    omega
  | cons nb rest ih =>
    intro deg q deg' q' h u d hd hpos hle
    rw [processNeighbors_cons] at h
    cases hdn : dictFind deg nb with
    | none => rw [hdn] at h; exact absurd h (by simp)
    | some dn =>
      rw [hdn] at h
      by_cases hu : nb = u
      · subst hu
        have hdd : dn = d := Option.some.inj (hdn ▸ hd)
        subst hdd
        by_cases hz : dn - 1 = 0
        · refine processNeighbors_queue_mono rest _ _ _ _ h nb ?_
          rw [if_pos hz]
          exact List.mem_append_right _ (List.mem_singleton.mpr rfl)
        · have h1 : dictFind (dictSet deg nb (dn - 1)) nb = some (dn - 1) := by
            rw [dictFind_dictSet, if_pos rfl, hdn]; rfl
          refine ih _ _ _ _ h nb (dn - 1) h1 (by omega) ?_
          rw [List.count_cons_self] at hle
          push_cast at hle ⊢
          omega
      · have h1 : dictFind (dictSet deg nb (dn - 1)) u = some d := by
          rw [dictFind_dictSet, if_neg hu, hd]
        refine ih _ _ _ _ h u d h1 hpos ?_
        rwa [List.count_cons_of_ne (fun hh => hu hh.symm)] at hle

theorem processNeighbors_inv : ∀ (l : List String) (deg : List (String × Int))
    (q S : List String) (deg' : List (String × Int)) (q' : List String),
    processNeighbors deg q l = some (deg', q') →
    q.Nodup → (∀ x ∈ q, x ∉ S) →
    (∀ x, (x ∈ q ∨ x ∈ S) → ∃ d, dictFind deg x = some d ∧ d ≤ 0) →
    q'.Nodup ∧ (∀ x ∈ q', x ∉ S) ∧
      (∀ x, (x ∈ q' ∨ x ∈ S) → ∃ d, dictFind deg' x = some d ∧ d ≤ 0) := by
  intro l
  induction l with
  | nil =>
    intro deg q S deg' q' h hnd hdisj hval
    obtain ⟨h1, h2⟩ := Prod.mk.injEq .. ▸ Option.some.inj h
    subst h1; subst h2
    exact ⟨hnd, hdisj, hval⟩
  | cons nb rest ih =>
    intro deg q S deg' q' h hnd hdisj hval
    rw [processNeighbors_cons] at h
    cases hdn : dictFind deg nb with
    | none => rw [hdn] at h; exact absurd h (by simp)
    | some dn =>
      rw [hdn] at h
      have h' : processNeighbors (dictSet deg nb (dn - 1))
          (if dn - 1 = 0 then q ++ [nb] else q) rest = some (deg', q') := h
      by_cases hz : dn - 1 = 0
      · rw [if_pos hz] at h'
        have hfresh : nb ∉ q ∧ nb ∉ S := by
          constructor
          · intro hmem
            obtain ⟨d', hd', hle⟩ := hval nb (Or.inl hmem)
            have : dn = d' := Option.some.inj (hdn ▸ hd')
            omega
          · intro hmem
            obtain ⟨d', hd', hle⟩ := hval nb (Or.inr hmem)
            have : dn = d' := Option.some.inj (hdn ▸ hd')
            omega
        refine ih _ _ _ _ _ h' ?_ ?_ ?_
        · exact List.Nodup.append hnd (List.nodup_singleton nb)
            (fun x hx hmem => hfresh.1 ((List.mem_singleton.mp hmem) ▸ hx))
        · intro x hx
          rcases List.mem_append.mp hx with h1 | h1
          · exact hdisj x h1
          · exact (List.mem_singleton.mp h1) ▸ hfresh.2
        · intro x hx
          by_cases hxnb : x = nb
          · subst hxnb
            refine ⟨dn - 1, ?_, by omega⟩
            rw [dictFind_dictSet, if_pos rfl, hdn]; rfl
          · have hx' : x ∈ q ∨ x ∈ S := by
              rcases hx with h1 | h1
              · rcases List.mem_append.mp h1 with h2 | h2
                · exact Or.inl h2
                · exact absurd (List.mem_singleton.mp h2) hxnb
              · exact Or.inr h1
            obtain ⟨d', hd', hle⟩ := hval x hx'
            refine ⟨d', ?_, hle⟩
            rw [dictFind_dictSet, if_neg (fun hh => hxnb hh.symm), hd']
      · rw [if_neg hz] at h'
        refine ih _ _ _ _ _ h' hnd hdisj ?_
        intro x hx
        by_cases hxnb : x = nb
        · subst hxnb
          obtain ⟨d', hd', hle⟩ := hval x hx
          have : dn = d' := Option.some.inj (hdn ▸ hd')
          refine ⟨dn - 1, ?_, by omega⟩
          rw [dictFind_dictSet, if_pos rfl, hdn]; rfl
        · obtain ⟨d', hd', hle⟩ := hval x hx
          refine ⟨d', ?_, hle⟩
          rw [dictFind_dictSet, if_neg (fun hh => hxnb hh.symm), hd']

/-! ## The work-queue loop: instrumented run, correspondence, fuel -/

theorem kahnLoop_nil (adj : List (String × List String)) (fuel : Nat)
    (deg : List (String × Int)) (c : Nat) : kahnLoop adj fuel deg [] c = some c := by
  cases fuel <;> rfl

theorem kahnLoop_cons (adj : List (String × List String)) (fuel : Nat)
    (deg : List (String × Int)) (cur : String) (rest : List String) (c : Nat) :
    kahnLoop adj (fuel + 1) deg (cur :: rest) c =
      match dictFind adj cur with
      | none => none
      | some succs =>
        match processNeighbors deg rest succs with
        | none => none
        | some (deg', queue') => kahnLoop adj fuel deg' queue' (c + 1) := rfl

theorem kahnRun_nil (adj : List (String × List String)) (fuel : Nat)
    (deg : List (String × Int)) (P : List String) :
    kahnRun adj fuel deg [] P = some (deg, P) := by
  cases fuel <;> rfl

theorem kahnRun_cons (adj : List (String × List String)) (fuel : Nat)
    (deg : List (String × Int)) (cur : String) (rest P : List String) :
    kahnRun adj (fuel + 1) deg (cur :: rest) P =
      match dictFind adj cur with
      | none => none
      | some succs =>
        match processNeighbors deg rest succs with
        | none => none
        | some (deg', queue') => kahnRun adj fuel deg' queue' (P ++ [cur]) := rfl

theorem kahnLoop_eq_kahnRun (adj : List (String × List String)) :
    ∀ (fuel : Nat) (deg : List (String × Int)) (q P : List String),
    kahnLoop adj fuel deg q P.length =
      (kahnRun adj fuel deg q P).map (fun r => r.2.length) := by
  intro fuel
  induction fuel with
  | zero =>
    intro deg q P
    cases q with
    | nil => rw [kahnLoop_nil, kahnRun_nil]; rfl
    | cons cur rest => rfl
  | succ fuel ih =>
    intro deg q P
    cases q with
    | nil => rw [kahnLoop_nil, kahnRun_nil]; rfl
    | cons cur rest =>
      rw [kahnLoop_cons, kahnRun_cons]
      cases hs : dictFind adj cur with
      | none => simp
      | some succs =>
        cases hp : processNeighbors deg rest succs with
        | none => simp [hp]
        | some r =>
          obtain ⟨deg', queue'⟩ := r
          simp only [hp]
          have := ih deg' queue' (P ++ [cur])
          simpa [List.length_append] using this

theorem kahnLoop_fuel_mono (adj : List (String × List String)) :
    ∀ (fuel : Nat) (deg : List (String × Int)) (q : List String) (c r : Nat),
    kahnLoop adj fuel deg q c = some r →
    ∀ fuel2, fuel ≤ fuel2 → kahnLoop adj fuel2 deg q c = some r := by
  intro fuel
  induction fuel with
  | zero =>
    intro deg q c r h fuel2 _
    cases q with
    | nil => rw [kahnLoop_nil]; rw [kahnLoop_nil] at h; exact h
    | cons cur rest => exact absurd h (by simp [kahnLoop])
  | succ fuel ih =>
    intro deg q c r h fuel2 hle
    cases q with
    | nil => rw [kahnLoop_nil]; rw [kahnLoop_nil] at h; exact h
    | cons cur rest =>
      obtain ⟨fuel2m, rfl⟩ : ∃ m, fuel2 = m + 1 := by
        cases fuel2
        · omega
        · exact ⟨_, rfl⟩
      rw [kahnLoop_cons] at h
      rw [kahnLoop_cons]
      cases hs : dictFind adj cur with
      | none => rw [hs] at h; exact absurd h (by simp)
      | some succs =>
        simp only [hs] at h ⊢
        cases hp : processNeighbors deg rest succs with
        | none => simp [hp] at h
        | some rr =>
          obtain ⟨deg', queue'⟩ := rr
          simp only [hp] at h ⊢
          exact ih deg' queue' (c + 1) r h fuel2m (by omega)

/-! ## Small list helpers -/

theorem length_le_of_nodup_subset (l1 l2 : List String) (h : l1.Nodup)
    (hs : ∀ x ∈ l1, x ∈ l2) : l1.length ≤ l2.length := by
  calc l1.length = l1.toFinset.card := (List.toFinset_card_of_nodup h).symm
    _ ≤ l2.toFinset.card := Finset.card_le_card
        (fun x hx => List.mem_toFinset.mpr (hs x (List.mem_toFinset.mp hx)))
    _ ≤ l2.length := l2.toFinset_card_le

theorem posOf_lt_length (x : String) (l : List String) (h : x ∈ l) :
    posOf x l < l.length := by
  induction l with
  | nil => simp at h
  | cons y rest ih =>
    by_cases hy : y = x
    · simp [posOf, hy]
    · have hx : x ∈ rest := by
        rcases List.mem_cons.mp h with h1 | h1
        · exact absurd h1.symm hy
        · exact h1
      simp only [posOf, if_neg hy, List.length_cons]
      exact Nat.succ_lt_succ (ih hx)

/-! ## The Kahn-loop invariant and the master run lemma -/

theorem kahnRun_master (E : List Edge) (Kd : List String)
    (adj : List (String × List String))
    (hWF : ∀ e ∈ E, e.source ∈ Kd ∧ e.target ∈ Kd)
    (hadj : ∀ u ∈ Kd, dictFind adj u =
      some ((E.filter (fun e => e.source == u)).map Edge.target)) :
    ∀ (fuel : Nat) (deg : List (String × Int)) (queue P : List String),
    KInv E Kd deg queue P → Kd.length ≤ fuel + P.length →
    ∃ deg' P', kahnRun adj fuel deg queue P = some (deg', P') ∧
      KInv E Kd deg' [] P' := by
  intro fuel
  induction fuel with
  | zero =>
    intro deg queue P hinv hfuel
    cases queue with
    | nil => exact ⟨deg, P, kahnRun_nil adj 0 deg P, hinv.keys, hinv.degVal, hinv.nodupP,
        List.nodup_nil, by simp, hinv.subP, by simp, by simp, hinv.topo,
        fun u hu hle => by
          rcases hinv.complete u hu hle with h | h
          · exact Or.inl h
          · simp at h⟩
    | cons cur rest =>
      exfalso
      have hcne : cur ∉ P := hinv.disj cur (List.mem_cons_self cur rest)
      have hnd : (P ++ [cur]).Nodup :=
        List.Nodup.append hinv.nodupP (List.nodup_singleton cur)
          (fun x hx hmem => hcne ((List.mem_singleton.mp hmem) ▸ hx))
      have hsub : ∀ x ∈ P ++ [cur], x ∈ Kd := by
        intro x hx
        rcases List.mem_append.mp hx with h1 | h1
        · exact hinv.subP x h1
        · exact (List.mem_singleton.mp h1) ▸ hinv.subQ cur (List.mem_cons_self cur rest)
      have := length_le_of_nodup_subset (P ++ [cur]) Kd hnd hsub
      rw [List.length_append] at this
      simp at this
      omega
  | succ fuel ih =>
    intro deg queue P hinv hfuel
    cases queue with
    | nil => exact ⟨deg, P, kahnRun_nil adj (fuel + 1) deg P, hinv.keys, hinv.degVal,
        hinv.nodupP, List.nodup_nil, by simp, hinv.subP, by simp, by simp, hinv.topo,
        fun u hu hle => by
          rcases hinv.complete u hu hle with h | h
          · exact Or.inl h
          · simp at h⟩
    | cons cur rest =>
      -- facts about the popped node
      have hcurQ : cur ∈ cur :: rest := List.mem_cons_self cur rest
      have hcurK : cur ∈ Kd := hinv.subQ cur hcurQ
      have hcurP : cur ∉ P := hinv.disj cur hcurQ
      have hsuccs := hadj cur hcurK
      set succs := (E.filter (fun e => e.source == cur)).map Edge.target with hsuccs_def
      -- the successors are all declared keys
      have hsuccsK : ∀ x ∈ succs, x ∈ dictKeys deg := by
        intro x hx
        rw [hinv.keys]
        obtain ⟨e, he, het⟩ := List.mem_map.mp hx
        have he' := List.mem_filter.mp he
        exact het ▸ (hWF e he'.1).2
      -- run the inner loop
      obtain ⟨deg1, q1, hsome, hk1, hfd1, ext, hq1, hext⟩ :=
        processNeighbors_spec succs deg rest hsuccsK
      -- nodup/tail facts for the queue
      have hndc := List.nodup_cons.mp hinv.nodupQ
      -- values on the old queue and processed prefix are ≤ 0
      have hval : ∀ x, (x ∈ rest ∨ x ∈ P ++ [cur]) →
          ∃ d, dictFind deg x = some d ∧ d ≤ 0 := by
        intro x hx
        have hzero : ∀ u, u ∈ cur :: rest ∨ u ∈ P →
            dictFind deg u = some 0 := by
          intro u hu
          have huK : u ∈ Kd := by
            rcases hu with h1 | h1
            · exact hinv.subQ u h1
            · exact hinv.subP u h1
          have hfull : ∀ e ∈ E, e.target = u → e.source ∈ P := by
            rcases hu with h1 | h1
            · exact hinv.qEdges u h1
            · exact fun e he het => ((hinv.topo e he) (het ▸ h1)).1
          have : inflow E P u = indeg E u := inflow_eq_indeg_of E P u hfull
          have hv := hinv.degVal u huK
          rw [this] at hv
          simpa using hv
        rcases hx with h1 | h1
        · exact ⟨0, hzero x (Or.inl (List.mem_cons_of_mem cur h1)), le_refl 0⟩
        · rcases List.mem_append.mp h1 with h2 | h2
          · exact ⟨0, hzero x (Or.inr h2), le_refl 0⟩
          · exact ⟨0, hzero x (Or.inl ((List.mem_singleton.mp h2) ▸ hcurQ)), le_refl 0⟩
      have hdisj1 : ∀ x ∈ rest, x ∉ P ++ [cur] := by
        intro x hx hmem
        rcases List.mem_append.mp hmem with h1 | h1
        · exact hinv.disj x (List.mem_cons_of_mem cur hx) h1
        · exact hndc.1 ((List.mem_singleton.mp h1) ▸ hx)
      obtain ⟨hq1nd, hq1disj, hq1val⟩ :=
        processNeighbors_inv succs deg rest (P ++ [cur]) deg1 q1 hsome hndc.2 hdisj1 hval
      -- the new degree values are those of the grown processed list
      have hdegVal1 : ∀ u ∈ Kd, dictFind deg1 u =
          some (indeg E u - inflow E (P ++ [cur]) u) := by
        intro u hu
        have h1 := hfd1 u _ (hinv.degVal u hu)
        rw [h1]
        congr 1
        rw [inflow_append_single E P cur u hcurP]
        have := count_targets_eq_edgeCount E cur u
        rw [hsuccs_def, this]
        ring
      -- the new processed list
      have hndP1 : (P ++ [cur]).Nodup :=
        List.Nodup.append hinv.nodupP (List.nodup_singleton cur)
          (fun x hx hmem => hcurP ((List.mem_singleton.mp hmem) ▸ hx))
      have hsubP1 : ∀ x ∈ P ++ [cur], x ∈ Kd := by
        intro x hx
        rcases List.mem_append.mp hx with h1 | h1
        · exact hinv.subP x h1
        · exact (List.mem_singleton.mp h1) ▸ hcurK
      have hsubQ1 : ∀ x ∈ q1, x ∈ Kd := by
        intro x hx
        rw [hq1] at hx
        rcases List.mem_append.mp hx with h1 | h1
        · exact hinv.subQ x (List.mem_cons_of_mem cur h1)
        · have := hext x h1
          rw [← hinv.keys]
          exact hsuccsK x this
      -- every queued node has all its in-edges inside the processed list
      have hqEdges1 : ∀ u ∈ q1, ∀ e ∈ E, e.target = u → e.source ∈ P ++ [cur] := by
        intro u hu
        obtain ⟨d1, hd1, hle1⟩ := hq1val u (Or.inl hu)
        have hv := hdegVal1 u (hsubQ1 u hu)
        have hdd : indeg E u - inflow E (P ++ [cur]) u = d1 := Option.some.inj (hv ▸ hd1)
        have hge : inflow E (P ++ [cur]) u ≤ indeg E u := inflow_le_indeg E _ u
        have : inflow E (P ++ [cur]) u = indeg E u := by omega
        exact all_sources_mem_of_inflow_eq E _ u this
      -- topological order extends
      have htopo1 : Topo E (P ++ [cur]) := by
        intro e he hte
        rcases List.mem_append.mp hte with h1 | h1
        · obtain ⟨hsrc, hlt⟩ := hinv.topo e he h1
          refine ⟨List.mem_append_left _ hsrc, ?_⟩
          rw [posOf_append_left _ _ _ hsrc, posOf_append_left _ _ _ h1]
          exact hlt
        · have hcur' : e.target = cur := List.mem_singleton.mp h1
          have hsrc : e.source ∈ P := hinv.qEdges cur hcurQ e he hcur'
          refine ⟨List.mem_append_left _ hsrc, ?_⟩
          rw [posOf_append_left _ _ _ hsrc, hcur', posOf_append_right _ _ _ hcurP]
          have := posOf_lt_length e.source P hsrc
          simp [posOf]
          omega
      -- completeness: every fully-drained node is popped or queued
      have hcomplete1 : ∀ u ∈ Kd, indeg E u - inflow E (P ++ [cur]) u ≤ 0 →
          u ∈ P ++ [cur] ∨ u ∈ q1 := by
        intro u hu hle
        by_cases hold : indeg E u - inflow E P u ≤ 0
        · rcases hinv.complete u hu hold with h1 | h1
          · exact Or.inl (List.mem_append_left _ h1)
          · rcases List.mem_cons.mp h1 with h2 | h2
            · exact Or.inl (List.mem_append_right _ (List.mem_singleton.mpr h2))
            · exact Or.inr (hq1 ▸ List.mem_append_left _ h2)
        · refine Or.inr (processNeighbors_cross succs deg rest deg1 q1 hsome u
            (indeg E u - inflow E P u) (hinv.degVal u hu) (by omega) ?_)
          have h1 : (succs.count u : Int) = edgeCount E cur u := by
            rw [hsuccs_def]
            exact count_targets_eq_edgeCount E cur u
          rw [h1]
          have h2 := inflow_append_single E P cur u hcurP
          omega
      -- assemble the new invariant and recurse
      have hinv1 : KInv E Kd deg1 q1 (P ++ [cur]) :=
        ⟨by rw [hk1, hinv.keys], hdegVal1, hndP1, hq1nd, hq1disj, hsubP1, hsubQ1,
          hqEdges1, htopo1, hcomplete1⟩
      obtain ⟨deg2, P2, hrun2, hinv2⟩ := ih deg1 q1 (P ++ [cur]) hinv1
        (by rw [List.length_append]; simp; omega)
      refine ⟨deg2, P2, ?_, hinv2⟩
      rw [kahnRun_cons]
      simp only [hsuccs, hsome]
      exact hrun2

/-! ## Assembled behaviour of `is_dag` on well-formed input -/

theorem is_dagAux_eq_of_build (fuel : Nat) (nodes : List Node) (edges : List Edge)
    (adj : List (String × List String)) (deg : List (String × Int))
    (h : buildMaps nodes edges = some (adj, deg)) :
    is_dagAux fuel nodes edges =
      match kahnLoop adj fuel deg ((deg.filter (fun p => p.2 == 0)).map Prod.fst) 0 with
      | none => none
      | some c => some (c == nodes.length) := by
  unfold is_dagAux
  rw [h]

/-- Running `is_dag` on well-formed input (every edge endpoint declared):
the loop pops a duplicate-free list `P` of declared identifiers, in
topological order; any declared identifier left unpopped has an in-edge
from another unpopped node; and for any sufficient fuel, the verdict is
`P.length == len(nodes)`. -/
theorem is_dag_main (nodes : List Node) (edges : List Edge)
    (hWF : WellFormed nodes edges) :
    ∃ P : List String, P.Nodup ∧ (∀ x ∈ P, x ∈ nodes.map Node.id) ∧
      Topo edges P ∧
      (∀ u ∈ nodes.map Node.id, u ∉ P → ∃ e ∈ edges, e.target = u ∧ e.source ∉ P) ∧
      (∀ fuel, nodes.length ≤ fuel →
        is_dagAux fuel nodes edges = some (P.length == nodes.length)) := by
  set ids := nodes.map Node.id with hids
  set adj0 := dictInit ids ([] : List String) with hadj0
  set deg0 := dictInit ids (0 : Int) with hdeg0
  set Kd := dictKeys deg0 with hKd_def
  have hKd_nodup : Kd.Nodup := dictKeys_dictInit_nodup ids 0
  have hKd_mem : ∀ x, x ∈ Kd ↔ x ∈ ids := fun x => mem_dictKeys_dictInit ids 0 x
  have hadj0_mem : ∀ x, x ∈ dictKeys adj0 ↔ x ∈ ids :=
    fun x => mem_dictKeys_dictInit ids ([] : List String) x
  have hWF' : ∀ e ∈ edges, e.source ∈ dictKeys adj0 ∧ e.target ∈ dictKeys deg0 := by
    intro e he
    obtain ⟨h1, h2⟩ := hWF e he
    exact ⟨(hadj0_mem e.source).mpr h1, (hKd_mem e.target).mpr h2⟩
  obtain ⟨adj1, deg1, hsome, hka, hkd, hfa, hfd⟩ := addEdges_spec edges adj0 deg0 hWF'
  have hbuild : buildMaps nodes edges = some (adj1, deg1) := hsome
  -- adjacency characterization
  have hadj1 : ∀ u ∈ Kd, dictFind adj1 u =
      some ((edges.filter (fun e => e.source == u)).map Edge.target) := by
    intro u hu
    have h0 : dictFind adj0 u = some [] := by
      rw [hadj0, dictFind_dictInit, if_pos ((hKd_mem u).mp hu)]
    have := hfa u [] h0
    simpa using this
  -- degree characterization
  have hdeg1 : ∀ u ∈ Kd, dictFind deg1 u = some (indeg edges u) := by
    intro u hu
    have h0 : dictFind deg0 u = some 0 := by
      rw [hdeg0, dictFind_dictInit, if_pos ((hKd_mem u).mp hu)]
    have := hfd u 0 h0
    rw [this]
    congr 1
    unfold indeg
    ring
  have hkd1 : dictKeys deg1 = Kd := hkd
  -- the seeded queue
  set queue0 := (deg1.filter (fun p => p.2 == 0)).map Prod.fst with hqueue0
  have hq0_nodup : queue0.Nodup := by
    have hsub : queue0.Sublist (dictKeys deg1) :=
      List.Sublist.map Prod.fst (List.filter_sublist deg1)
    exact hsub.nodup (hkd1 ▸ hKd_nodup)
  have hq0_find : ∀ u ∈ queue0, dictFind deg1 u = some 0 := by
    intro u hu
    obtain ⟨p, hp, hp1⟩ := List.mem_map.mp hu
    have hpf := List.mem_filter.mp hp
    have hp2 : p.2 = 0 := by simpa using hpf.2
    have := dictFind_of_mem deg1 p.1 p.2 (hkd1 ▸ hKd_nodup) (by
      obtain ⟨a, b⟩ := p
      exact hpf.1)
    rw [hp1] at this
    rw [this, hp2]
  have hq0_sub : ∀ u ∈ queue0, u ∈ Kd := by
    intro u hu
    obtain ⟨p, hp, hp1⟩ := List.mem_map.mp hu
    have hpf := List.mem_filter.mp hp
    rw [← hkd1, ← hp1]
    exact List.mem_map_of_mem Prod.fst hpf.1
  have hq0_indeg : ∀ u ∈ queue0, indeg edges u = 0 := by
    intro u hu
    have h1 := hq0_find u hu
    have h2 := hdeg1 u (hq0_sub u hu)
    exact (Option.some.inj (h1.symm.trans h2)).symm
  -- initial invariant
  have hinv0 : KInv edges Kd deg1 queue0 [] := by
    refine ⟨hkd1, ?_, List.nodup_nil, hq0_nodup, by simp, by simp, hq0_sub, ?_, ?_, ?_⟩
    · intro u hu
      simp [hdeg1 u hu, inflow_nil]
    · intro u hu e he het
      exfalso
      have h1 := hq0_indeg u hu
      unfold indeg at h1
      have h2 : edges.countP (fun e => e.target == u) = 0 := by exact_mod_cast h1
      have := (List.countP_eq_zero.mp h2) e he
      simp [het] at this
    · intro e _ hte
      simp at hte
    · intro u hu hle
      rw [inflow_nil] at hle
      have hnn := indeg_nonneg edges u
      have h0 : indeg edges u = 0 := by omega
      have h1 := hdeg1 u hu
      rw [h0] at h1
      have hmem := dictFind_mem deg1 u 0 h1
      refine Or.inr ?_
      rw [hqueue0]
      refine List.mem_map.mpr ⟨(u, 0), List.mem_filter.mpr ⟨hmem, by simp⟩, rfl⟩
  -- well-formedness over the key list
  have hWFK : ∀ e ∈ edges, e.source ∈ Kd ∧ e.target ∈ Kd := by
    intro e he
    obtain ⟨h1, h2⟩ := hWF e he
    exact ⟨(hKd_mem e.source).mpr h1, (hKd_mem e.target).mpr h2⟩
  have hKd_le : Kd.length ≤ nodes.length := by
    have := length_le_of_nodup_subset Kd ids hKd_nodup (fun x hx => (hKd_mem x).mp hx)
    simpa [hids] using this
  -- run the loop at the canonical fuel; then transfer to any larger fuel
  obtain ⟨deg2, P2, hrun, hinv2⟩ := kahnRun_master edges Kd adj1 hWFK hadj1
    nodes.length deg1 queue0 [] hinv0 (by simpa using hKd_le)
  refine ⟨P2, hinv2.nodupP, fun x hx => (hKd_mem x).mp (hinv2.subP x hx), hinv2.topo,
    ?_, ?_⟩
  · intro u hu hnotP
    have huK : u ∈ Kd := (hKd_mem u).mpr hu
    have hpos : 0 < indeg edges u - inflow edges P2 u := by
      by_contra hc
      push_neg at hc
      rcases hinv2.complete u huK hc with h1 | h1
      · exact hnotP h1
      · simp at h1
    exact exists_source_not_mem edges P2 u (by omega)
  · intro fuel hfuel
    rw [is_dagAux_eq_of_build fuel nodes edges adj1 deg1 hbuild]
    have hcount : kahnLoop adj1 nodes.length deg1 queue0 0 = some P2.length := by
      have := kahnLoop_eq_kahnRun adj1 nodes.length deg1 queue0 []
      simp only [List.length_nil] at this
      rw [this, hrun]
      rfl
    have hcount2 : kahnLoop adj1 fuel deg1 queue0 0 = some P2.length :=
      kahnLoop_fuel_mono adj1 nodes.length deg1 queue0 0 P2.length hcount fuel hfuel
    rw [hcount2]

/-! ## From topological order to acyclicity, and back -/

theorem transGen_posOf_lt (edges : List Edge) (P : List String)
    (htopo : Topo edges P) (hall : ∀ e ∈ edges, e.target ∈ P) :
    ∀ a b, Relation.TransGen (Step edges) a b → posOf a P < posOf b P := by
  intro a b h
  have hstep : ∀ x y, Step edges x y → posOf x P < posOf y P := by
    intro x y hs
    obtain ⟨e, he, hsrc, htgt⟩ := hs
    obtain ⟨_, hlt⟩ := htopo e he (hall e he)
    rw [hsrc, htgt] at hlt
    exact hlt
  induction h with
  | single hs => exact hstep _ _ hs
  | tail _ hs ih => exact lt_trans ih (hstep _ _ hs)

theorem cycle_of_trapped (edges : List Edge) (U : List String) (u0 : String)
    (hu0 : u0 ∈ U)
    (hpred : ∀ u ∈ U, ∃ e ∈ edges, e.target = u ∧ e.source ∈ U) :
    ∃ a, Relation.TransGen (Step edges) a a := by
  let f : String → String := fun u => if h : u ∈ U then (hpred u h).choose.source else u
  have hf : ∀ u ∈ U, f u ∈ U ∧ Step edges (f u) u := by
    intro u hu
    obtain ⟨he, htgt, hsrcU⟩ := (hpred u hu).choose_spec
    have hfu : f u = (hpred u hu).choose.source := by
      simp only [f, dif_pos hu]
    rw [hfu]
    exact ⟨hsrcU, ⟨_, he, rfl, htgt⟩⟩
  have hiter : ∀ n, f^[n] u0 ∈ U := by
    intro n
    induction n with
    | zero => simpa using hu0
    | succ n ih =>
      rw [Function.iterate_succ_apply']
      exact (hf _ ih).1
  have hchain : ∀ i j, i < j → Relation.TransGen (Step edges) (f^[j] u0) (f^[i] u0) := by
    intro i j hij
    induction j with
    | zero => omega
    | succ j ihj =>
      have hstep : Step edges (f^[j + 1] u0) (f^[j] u0) := by
        rw [Function.iterate_succ_apply']
        exact (hf _ (hiter j)).2
      by_cases hji : i = j
      · subst hji
        exact Relation.TransGen.single hstep
      · exact Relation.TransGen.head hstep (ihj (by omega))
  have hcard : U.toFinset.card < (Finset.range (U.toFinset.card + 1)).card := by simp
  obtain ⟨i, _, j, _, hne, heq⟩ := Finset.exists_ne_map_eq_of_card_lt_of_maps_to hcard
    (fun n _ => List.mem_toFinset.mpr (hiter n))
  rcases Nat.lt_or_ge i j with hij | hij
  · have hc := hchain i j hij
    rw [← heq] at hc
    exact ⟨_, hc⟩
  · have hji : j < i := by omega
    have hc := hchain j i hji
    rw [heq] at hc
    exact ⟨_, hc⟩

theorem mem_of_nodup_subset_length_le (l1 l2 : List String) (h1 : l1.Nodup)
    (h2 : l2.Nodup) (hsub : ∀ x ∈ l1, x ∈ l2) (hlen : l2.length ≤ l1.length) :
    ∀ x ∈ l2, x ∈ l1 := by
  have hfc : l1.toFinset ⊆ l2.toFinset :=
    fun x hx => List.mem_toFinset.mpr (hsub x (List.mem_toFinset.mp hx))
  have hcard : l2.toFinset.card ≤ l1.toFinset.card := by
    rw [List.toFinset_card_of_nodup h1, List.toFinset_card_of_nodup h2]
    exact hlen
  have hfin : l1.toFinset = l2.toFinset := Finset.eq_of_subset_of_card_le hfc hcard
  intro x hx
  exact List.mem_toFinset.mp (hfin ▸ List.mem_toFinset.mpr hx)

/-- Central correctness result: on distinct declared identifiers and
well-formed edges, `is_dag` answers `some true` exactly on acyclic
graphs. -/
theorem is_dag_iff_acyclic (nodes : List Node) (edges : List Edge)
    (hnd : (nodes.map Node.id).Nodup) (hWF : WellFormed nodes edges) :
    is_dag nodes edges = some true ↔ Acyclic edges := by
  obtain ⟨P, hPnd, hPsub, htopo, hmissing, heval⟩ := is_dag_main nodes edges hWF
  have hrun : is_dag nodes edges = some (P.length == nodes.length) :=
    heval nodes.length (le_refl _)
  have hPle : P.length ≤ nodes.length := by
    have := length_le_of_nodup_subset P (nodes.map Node.id) hPnd hPsub
    simpa using this
  constructor
  · intro htrue
    have hb : (P.length == nodes.length) = true := by
      have := hrun.symm.trans htrue
      exact Option.some.inj this
    have hlen : P.length = nodes.length := by
      simpa using hb
    have hcover : ∀ x ∈ nodes.map Node.id, x ∈ P :=
      mem_of_nodup_subset_length_le P (nodes.map Node.id) hPnd hnd hPsub
        (by simpa using hlen.ge)
    have hall : ∀ e ∈ edges, e.target ∈ P :=
      fun e he => hcover e.target (hWF e he).2
    intro a ha
    exact absurd (transGen_posOf_lt edges P htopo hall a a ha) (lt_irrefl _)
  · intro hacyc
    by_cases hall : ∀ u ∈ nodes.map Node.id, u ∈ P
    · have hge : nodes.length ≤ P.length := by
        have := length_le_of_nodup_subset (nodes.map Node.id) P hnd hall
        simpa using this
      have hlen : P.length = nodes.length := le_antisymm hPle hge
      rw [hrun, hlen]
      simp
    · exfalso
      push_neg at hall
      obtain ⟨u0, hu0ids, hu0P⟩ := hall
      set U := (nodes.map Node.id).filter (fun x => !(decide (x ∈ P))) with hU
      have hmemU : ∀ x, x ∈ U ↔ x ∈ nodes.map Node.id ∧ x ∉ P := by
        intro x
        rw [hU, List.mem_filter]
        simp
      have hu0U : u0 ∈ U := (hmemU u0).mpr ⟨hu0ids, hu0P⟩
      have hpred : ∀ u ∈ U, ∃ e ∈ edges, e.target = u ∧ e.source ∈ U := by
        intro u hu
        obtain ⟨huids, hunotP⟩ := (hmemU u).mp hu
        obtain ⟨e, he, htgt, hsrc⟩ := hmissing u huids hunotP
        refine ⟨e, he, htgt, (hmemU e.source).mpr ⟨(hWF e he).1, hsrc⟩⟩
      obtain ⟨a, ha⟩ := cycle_of_trapped edges U u0 hu0U hpred
      exact hacyc a ha

/-- `is_dag` never raises on well-formed input, whatever the verdict. -/
theorem is_dag_total (nodes : List Node) (edges : List Edge)
    (hWF : WellFormed nodes edges) : ∃ b, is_dag nodes edges = some b := by
  obtain ⟨P, _, _, _, _, heval⟩ := is_dag_main nodes edges hWF
  exact ⟨_, heval nodes.length (le_refl _)⟩

theorem is_dag_false_of_not_acyclic (nodes : List Node) (edges : List Edge)
    (hnd : (nodes.map Node.id).Nodup) (hWF : WellFormed nodes edges)
    (hcyc : ¬ Acyclic edges) : is_dag nodes edges = some false := by
  obtain ⟨b, hb⟩ := is_dag_total nodes edges hWF
  cases b with
  | false => exact hb
  | true => exact absurd ((is_dag_iff_acyclic nodes edges hnd hWF).mp hb) hcyc

/-! ## Simple directed cycles (spec §8) -/

theorem acyclic_of_rank (edges : List Edge) (rank : String → Nat)
    (h : ∀ e ∈ edges, rank e.source < rank e.target) : Acyclic edges := by
  intro a ha
  have hmono : ∀ x y, Relation.TransGen (Step edges) x y → rank x < rank y := by
    intro x y hxy
    induction hxy with
    | single hs =>
      obtain ⟨e, he, hsrc, htgt⟩ := hs
      exact hsrc ▸ htgt ▸ h e he
    | tail _ hs ih =>
      obtain ⟨e, he, hsrc, htgt⟩ := hs
      exact lt_trans ih (hsrc ▸ htgt ▸ h e he)
  exact absurd (hmono a a ha) (lt_irrefl _)

theorem cycleNodes_ids (l : List String) : (cycleNodes l).map Node.id = l := by
  unfold cycleNodes
  rw [List.map_map]
  exact List.map_id l

theorem mem_cycleEdges (l : List String) (e : Edge) :
    e ∈ cycleEdges l ↔ ∃ i, i < l.length ∧
      e = Edge.mk (l.getD i "") (l.getD ((i + 1) % l.length) "") "" := by
  unfold cycleEdges
  rw [List.mem_map]
  constructor
  · rintro ⟨i, hi, rfl⟩
    exact ⟨i, List.mem_range.mp hi, rfl⟩
  · rintro ⟨i, hi, rfl⟩
    exact ⟨i, List.mem_range.mpr hi, rfl⟩

theorem cycleEdges_wf (l : List String) (hl : 0 < l.length) :
    WellFormed (cycleNodes l) (cycleEdges l) := by
  intro e he
  obtain ⟨i, hi, rfl⟩ := (mem_cycleEdges l e).mp he
  rw [cycleNodes_ids]
  constructor
  · rw [List.getD_eq_getElem l "" hi]
    exact List.getElem_mem hi
  · have h2 : (i + 1) % l.length < l.length := Nat.mod_lt _ hl
    rw [List.getD_eq_getElem l "" h2]
    exact List.getElem_mem h2

theorem posOf_getD_nodup (l : List String) (hnd : l.Nodup) :
    ∀ i, i < l.length → posOf (l.getD i "") l = i := by
  induction l with
  | nil => intro i hi; simp at hi
  | cons y rest ih =>
    intro i hi
    cases i with
    | zero => simp [posOf, List.getD]
    | succ i =>
      have hndc := List.nodup_cons.mp hnd
      have hi' : i < rest.length := by simpa using hi
      have hmem : rest.getD i "" ∈ rest := by
        rw [List.getD_eq_getElem rest "" hi']
        exact List.getElem_mem hi'
      have hne : y ≠ rest.getD i "" := fun he => hndc.1 (he ▸ hmem)
      simp only [List.getD_cons_succ, posOf, if_neg hne]
      rw [ih hndc.2 i hi']

theorem exists_getD_of_mem_eraseIdx : ∀ (l : List Edge) (j : Nat) (x : Edge),
    x ∈ l.eraseIdx j → ∃ i, i < l.length ∧ i ≠ j ∧ l.getD i (Edge.mk "" "" "") = x := by
  intro l
  induction l with
  | nil => intro j x hx; simp [List.eraseIdx] at hx
  | cons a rest ih =>
    intro j x hx
    cases j with
    | zero =>
      rw [List.eraseIdx_cons_zero] at hx
      obtain ⟨i, hi, hne⟩ : ∃ i, i < rest.length ∧ rest.getD i (Edge.mk "" "" "") = x := by
        obtain ⟨i, hi, hg⟩ := List.mem_iff_getElem.mp hx
        exact ⟨i, hi, by rw [List.getD_eq_getElem rest _ hi]; exact hg⟩
      exact ⟨i + 1, by simpa using hi, by omega, by simpa using hne⟩
    | succ j =>
      rw [List.eraseIdx_cons_succ] at hx
      rcases List.mem_cons.mp hx with h1 | h1
      · exact ⟨0, by simp, by omega, by simp [h1.symm]⟩
      · obtain ⟨i, hi, hne, hg⟩ := ih j x h1
        exact ⟨i + 1, by simpa using hi, by omega, by simpa using hg⟩

theorem cycleEdges_has_cycle (l : List String) (hk : 2 ≤ l.length) :
    ¬ Acyclic (cycleEdges l) := by
  intro hacyc
  have hl : 0 < l.length := by omega
  have hstep : ∀ i, i < l.length →
      Step (cycleEdges l) (l.getD i "") (l.getD ((i + 1) % l.length) "") := by
    intro i hi
    exact ⟨Edge.mk (l.getD i "") (l.getD ((i + 1) % l.length) "") "",
      (mem_cycleEdges l _).mpr ⟨i, hi, rfl⟩, rfl, rfl⟩
  have hchain : ∀ i, 1 ≤ i → i < l.length →
      Relation.TransGen (Step (cycleEdges l)) (l.getD 0 "") (l.getD i "") := by
    intro i h1 h2
    induction i with
    | zero => omega
    | succ i ihi =>
      by_cases hz : i = 0
      · subst hz
        have := hstep 0 hl
        rw [Nat.mod_eq_of_lt (by omega)] at this
        exact Relation.TransGen.single this
      · have hs := hstep i (by omega)
        rw [Nat.mod_eq_of_lt (by omega)] at hs
        exact Relation.TransGen.tail (ihi (by omega) (by omega)) hs
  have hlast := hstep (l.length - 1) (by omega)
  have hmod : (l.length - 1 + 1) % l.length = 0 := by
    have : l.length - 1 + 1 = l.length := by omega
    rw [this, Nat.mod_self]
  rw [hmod] at hlast
  have hfull : Relation.TransGen (Step (cycleEdges l)) (l.getD 0 "") (l.getD 0 "") :=
    Relation.TransGen.tail (hchain (l.length - 1) (by omega) (by omega)) hlast
  exact hacyc _ hfull

theorem cycleEdges_erase_acyclic (l : List String) (hk : 2 ≤ l.length)
    (hnd : l.Nodup) (j : Nat) (hj : j < l.length) :
    Acyclic ((cycleEdges l).eraseIdx j) := by
  set k := l.length with hkdef
  set s := k - 1 - j with hsdef
  refine acyclic_of_rank _ (fun x => (posOf x l + s) % k) ?_
  intro e he
  obtain ⟨i, hik, hine, hg⟩ := exists_getD_of_mem_eraseIdx (cycleEdges l) j e he
  have hlen : (cycleEdges l).length = k := by
    unfold cycleEdges
    simp [hkdef]
  rw [hlen] at hik
  have hgd : (cycleEdges l).getD i (Edge.mk "" "" "") =
      Edge.mk (l.getD i "") (l.getD ((i + 1) % k) "") "" := by
    unfold cycleEdges
    rw [List.getD_eq_getElem _ _ (by simpa [hkdef] using hik)]
    simp [hkdef]
  rw [hgd] at hg
  have hsrc : e.source = l.getD i "" := by rw [← hg]
  have htgt : e.target = l.getD ((i + 1) % k) "" := by rw [← hg]
  have hpos1 : posOf e.source l = i := by
    rw [hsrc]
    exact posOf_getD_nodup l hnd i hik
  have hmodlt : (i + 1) % k < k := Nat.mod_lt _ (by omega)
  have hpos2 : posOf e.target l = (i + 1) % k := by
    rw [htgt]
    exact posOf_getD_nodup l hnd _ hmodlt
  simp only []
  rw [hpos1, hpos2]
  -- arithmetic: the rotated rank increases along every surviving edge
  have hjs : j + s = k - 1 := by omega
  rw [Nat.mod_add_mod]
  rcases Nat.lt_or_ge (i + s) k with hcase | hcase
  · have hne2 : i + s ≠ k - 1 := by omega
    rw [Nat.mod_eq_of_lt hcase, Nat.mod_eq_of_lt (by omega)]
    omega
  · have h1 : (i + s) % k = i + s - k := by
      rw [Nat.mod_eq_sub_mod hcase, Nat.mod_eq_of_lt (by omega)]
    have h2 : (i + 1 + s) % k = i + 1 + s - k := by
      rw [Nat.mod_eq_sub_mod (by omega), Nat.mod_eq_of_lt (by omega)]
    rw [h1, h2]
    omega

/-! ## Remaining shared helpers -/

theorem is_dagAux_none_of_build (fuel : Nat) (nodes : List Node) (edges : List Edge)
    (h : buildMaps nodes edges = none) : is_dagAux fuel nodes edges = none := by
  unfold is_dagAux
  rw [h]

theorem acyclic_nil : Acyclic [] := by
  intro a h
  have hgen : ∀ x y, Relation.TransGen (Step ([] : List Edge)) x y → False := by
    intro x y hxy
    induction hxy with
    | single hs => obtain ⟨e, he, _⟩ := hs; simp at he
    | tail _ hs _ => obtain ⟨e, he, _⟩ := hs; simp at he
  exact hgen a a h

theorem nodup_length_le_toFinset_card (P ids : List String) (hnd : P.Nodup)
    (hsub : ∀ x ∈ P, x ∈ ids) : P.length ≤ ids.toFinset.card := by
  rw [← List.toFinset_card_of_nodup hnd]
  exact Finset.card_le_card
    (fun x hx => List.mem_toFinset.mpr (hsub x (List.mem_toFinset.mp hx)))

theorem toFinset_card_lt_of_not_nodup (l : List String) (h : ¬ l.Nodup) :
    l.toFinset.card < l.length := by
  rw [List.card_toFinset]
  have hsub := List.dedup_sublist l
  rcases lt_or_eq_of_le hsub.length_le with h1 | h1
  · exact h1
  · have heq : l.dedup = l := hsub.eq_of_length h1
    exact absurd (heq ▸ List.nodup_dedup l) h

/-- The `is_dag` verdict depends on the edge list only through edge
membership (given well-formedness and distinct declared ids). -/
theorem is_dag_congr_mem (nodes : List Node) (E1 E2 : List Edge)
    (hnd : (nodes.map Node.id).Nodup) (hWF : WellFormed nodes E2)
    (hmem : ∀ x, x ∈ E1 ↔ x ∈ E2) : is_dag nodes E1 = is_dag nodes E2 := by
  have hWF1 : WellFormed nodes E1 := fun e he => hWF e ((hmem e).mp he)
  have hstep : ∀ a b, Step E1 a b ↔ Step E2 a b := by
    intro a b
    constructor
    · rintro ⟨e, he, h1, h2⟩; exact ⟨e, (hmem e).mp he, h1, h2⟩
    · rintro ⟨e, he, h1, h2⟩; exact ⟨e, (hmem e).mpr he, h1, h2⟩
  have hacy : Acyclic E1 ↔ Acyclic E2 := by
    constructor
    · intro h a ha
      exact h a (Relation.TransGen.mono (fun x y hs => (hstep x y).mpr hs) ha)
    · intro h a ha
      exact h a (Relation.TransGen.mono (fun x y hs => (hstep x y).mp hs) ha)
  by_cases hacyc : Acyclic E2
  · rw [(is_dag_iff_acyclic nodes E1 hnd hWF1).mpr (hacy.mpr hacyc),
      (is_dag_iff_acyclic nodes E2 hnd hWF).mpr hacyc]
  · rw [is_dag_false_of_not_acyclic nodes E1 hnd hWF1 (fun h => hacyc (hacy.mp h)),
      is_dag_false_of_not_acyclic nodes E2 hnd hWF hacyc]

/-! ## The claims -/

/-- C1: for distinct declared node identifiers with every edge endpoint
declared, `is_dag(nodes, edges)` returns true if and only if the
directed graph formed by those edges contains no directed cycle. -/
theorem claim_C1 (nodes : List Node) (edges : List Edge)
    (hnd : (nodes.map Node.id).Nodup) (hWF : WellFormed nodes edges) :
    is_dag nodes edges = some true ↔ Acyclic edges :=
  is_dag_iff_acyclic nodes edges hnd hWF

theorem claim_C1_witness :
    (([Node.mk "A", Node.mk "B"].map Node.id).Nodup ∧
      WellFormed [Node.mk "A", Node.mk "B"] [Edge.mk "A" "B" "e1"]) ∧
    (is_dag [Node.mk "A", Node.mk "B"] [Edge.mk "A" "B" "e1"] = some true ↔
      Acyclic [Edge.mk "A" "B" "e1"]) :=
  ⟨⟨by decide, by decide⟩, claim_C1 _ _ (by decide) (by decide)⟩

/-- C2: an edge whose source or target is not a declared node identifier
makes `is_dag` fault with a key-lookup error while building the
adjacency/in-degree maps, rather than return a boolean verdict. -/
theorem claim_C2 (nodes : List Node) (edges : List Edge)
    (hbad : ∃ e ∈ edges,
      e.source ∉ nodes.map Node.id ∨ e.target ∉ nodes.map Node.id) :
    buildMaps nodes edges = none ∧ is_dag nodes edges = none := by
  have hnone : buildMaps nodes edges = none := by
    unfold buildMaps
    refine addEdges_none edges _ _ ?_
    obtain ⟨e, he, hor⟩ := hbad
    refine ⟨e, he, ?_⟩
    rcases hor with h | h
    · exact Or.inl (fun hc => h ((mem_dictKeys_dictInit _ _ _).mp hc))
    · exact Or.inr (fun hc => h ((mem_dictKeys_dictInit _ _ _).mp hc))
  exact ⟨hnone, is_dagAux_none_of_build _ nodes edges hnone⟩

theorem claim_C2_witness :
    (∃ e ∈ [Edge.mk "A" "X" "e1"],
      e.source ∉ [Node.mk "A"].map Node.id ∨ e.target ∉ [Node.mk "A"].map Node.id) ∧
    buildMaps [Node.mk "A"] [Edge.mk "A" "X" "e1"] = none ∧
    is_dag [Node.mk "A"] [Edge.mk "A" "X" "e1"] = none :=
  ⟨by decide, claim_C2 _ _ (by decide)⟩

/-- C3 (counterexample): on `nodes = [A, A]`, `edges = []`, `is_dag`
returns `false`, while on the deduplicated node sequence `[A]` it
returns `true`, so the verdicts differ. -/
theorem claim_C3_counterexample :
    [Node.mk "A", Node.mk "A"].dedup = [Node.mk "A"] ∧
    is_dag [Node.mk "A", Node.mk "A"] [] = some false ∧
    is_dag [Node.mk "A"] [] = some true ∧
    is_dag [Node.mk "A", Node.mk "A"] [] ≠ is_dag [Node.mk "A"] [] := by
  refine ⟨by decide, by decide, by decide, by decide⟩

/-- C3 (amended): duplicate node identifiers never fault, but they do
corrupt the count comparison: whenever the node list contains a
duplicate identifier (and every edge endpoint is declared), `is_dag`
returns `some false` — not the verdict of the deduplicated node list. -/
theorem claim_C3 (nodes : List Node) (edges : List Edge)
    (hdup : ¬ (nodes.map Node.id).Nodup) (hWF : WellFormed nodes edges) :
    is_dag nodes edges = some false := by
  obtain ⟨P, hPnd, hPsub, _, _, heval⟩ := is_dag_main nodes edges hWF
  have h1 : P.length ≤ (nodes.map Node.id).toFinset.card :=
    nodup_length_le_toFinset_card P _ hPnd hPsub
  have h2 : (nodes.map Node.id).toFinset.card < (nodes.map Node.id).length :=
    toFinset_card_lt_of_not_nodup _ hdup
  have h3 : P.length ≠ nodes.length := by
    rw [List.length_map] at h2
    omega
  have hrun : is_dag nodes edges = some (P.length == nodes.length) :=
    heval nodes.length (le_refl _)
  rw [hrun]
  congr 1
  exact beq_eq_false_iff_ne.mpr h3

theorem claim_C3_witness :
    (¬ (([Node.mk "A", Node.mk "A"].map Node.id).Nodup) ∧
      WellFormed [Node.mk "A", Node.mk "A"] []) ∧
    is_dag [Node.mk "A", Node.mk "A"] [] = some false :=
  ⟨⟨by decide, by decide⟩, claim_C3 _ _ (by decide) (by decide)⟩

/-- C4: on distinct declared identifiers with well-formed edges the
work-queue loop terminates within `len(nodes)` iterations: the verdict
is already delivered at fuel `nodes.length` and is unchanged by any
larger fuel, so `is_dag` is total on such inputs. -/
theorem claim_C4 (nodes : List Node) (edges : List Edge)
    (_hnd : (nodes.map Node.id).Nodup) (hWF : WellFormed nodes edges) :
    ∃ b, is_dag nodes edges = some b ∧
      ∀ fuel, nodes.length ≤ fuel → is_dagAux fuel nodes edges = some b := by
  obtain ⟨P, _, _, _, _, heval⟩ := is_dag_main nodes edges hWF
  exact ⟨_, heval nodes.length (le_refl _), fun fuel hf => heval fuel hf⟩

theorem claim_C4_witness :
    (([Node.mk "A", Node.mk "B"].map Node.id).Nodup ∧
      WellFormed [Node.mk "A", Node.mk "B"] [Edge.mk "A" "B" "e1"]) ∧
    (∃ b, is_dag [Node.mk "A", Node.mk "B"] [Edge.mk "A" "B" "e1"] = some b ∧
      ∀ fuel, ([Node.mk "A", Node.mk "B"] : List Node).length ≤ fuel →
        is_dagAux fuel [Node.mk "A", Node.mk "B"] [Edge.mk "A" "B" "e1"] = some b) :=
  ⟨⟨by decide, by decide⟩, claim_C4 _ _ (by decide) (by decide)⟩

/-- C5: a simple directed cycle on `k ≥ 2` distinct identifiers is
rejected (`some false`), and removing any single one of its edges makes
`is_dag` accept (`some true`). -/
theorem claim_C5 (l : List String) (hk : 2 ≤ l.length) (hnd : l.Nodup) :
    is_dag (cycleNodes l) (cycleEdges l) = some false ∧
    ∀ j, j < l.length →
      is_dag (cycleNodes l) ((cycleEdges l).eraseIdx j) = some true := by
  have hids : ((cycleNodes l).map Node.id).Nodup := by
    rw [cycleNodes_ids]
    exact hnd
  have hwf := cycleEdges_wf l (by omega)
  constructor
  · exact is_dag_false_of_not_acyclic _ _ hids hwf (cycleEdges_has_cycle l hk)
  · intro j hj
    have hwf2 : WellFormed (cycleNodes l) ((cycleEdges l).eraseIdx j) :=
      fun e he => hwf e ((List.eraseIdx_sublist (cycleEdges l) j).subset he)
    exact (is_dag_iff_acyclic _ _ hids hwf2).mpr
      (cycleEdges_erase_acyclic l hk hnd j hj)

theorem claim_C5_witness :
    (2 ≤ (["A", "B", "C"] : List String).length ∧
      (["A", "B", "C"] : List String).Nodup) ∧
    is_dag (cycleNodes ["A", "B", "C"]) (cycleEdges ["A", "B", "C"]) = some false ∧
    is_dag (cycleNodes ["A", "B", "C"])
      ((cycleEdges ["A", "B", "C"]).eraseIdx 1) = some true :=
  ⟨⟨by decide, by decide⟩, (claim_C5 _ (by decide) (by decide)).1,
    (claim_C5 _ (by decide) (by decide)).2 1 (by decide)⟩

/-- C6: with no edges, `is_dag` returns true for any count of distinct
nodes; in particular the empty pipeline analyses to
`{num_nodes: 0, num_edges: 0, is_dag: true}`. -/
theorem claim_C6 :
    (∀ nodes : List Node, (nodes.map Node.id).Nodup → is_dag nodes [] = some true) ∧
    parse_pipeline (Pipeline.mk [] []) = some (AnalysisResult.mk 0 0 true) := by
  constructor
  · intro nodes hnd
    exact (is_dag_iff_acyclic nodes [] hnd (fun e he => by simp at he)).mpr acyclic_nil
  · rfl

theorem claim_C6_witness :
    is_dag [Node.mk "A", Node.mk "B"] [] = some true :=
  claim_C6.1 [Node.mk "A", Node.mk "B"] (by decide)

/-- C7: any self-loop (an edge whose source equals its target) forces
`is_dag` to return false, on distinct declared identifiers with
well-formed edges. -/
theorem claim_C7 (nodes : List Node) (edges : List Edge)
    (hnd : (nodes.map Node.id).Nodup) (hWF : WellFormed nodes edges)
    (hself : ∃ e ∈ edges, e.source = e.target) :
    is_dag nodes edges = some false := by
  obtain ⟨e, he, heq⟩ := hself
  refine is_dag_false_of_not_acyclic nodes edges hnd hWF ?_
  intro hacyc
  exact hacyc e.source (Relation.TransGen.single ⟨e, he, rfl, heq.symm⟩)

theorem claim_C7_witness :
    (([Node.mk "A"].map Node.id).Nodup ∧
      WellFormed [Node.mk "A"] [Edge.mk "A" "A" "e1"] ∧
      (∃ e ∈ [Edge.mk "A" "A" "e1"], e.source = e.target)) ∧
    is_dag [Node.mk "A"] [Edge.mk "A" "A" "e1"] = some false :=
  ⟨⟨by decide, by decide, by decide⟩, claim_C7 _ _ (by decide) (by decide) (by decide)⟩

/-- C8: permuting the edge list never changes the verdict of `is_dag`
(distinct declared identifiers, well-formed edges). -/
theorem claim_C8 (nodes : List Node) (edges edges2 : List Edge)
    (hnd : (nodes.map Node.id).Nodup) (hWF : WellFormed nodes edges)
    (hperm : edges.Perm edges2) :
    is_dag nodes edges2 = is_dag nodes edges :=
  is_dag_congr_mem nodes edges2 edges hnd hWF (fun _ => hperm.mem_iff.symm)

theorem claim_C8_witness :
    (([Node.mk "A", Node.mk "B", Node.mk "C"].map Node.id).Nodup ∧
      WellFormed [Node.mk "A", Node.mk "B", Node.mk "C"]
        [Edge.mk "A" "B" "e1", Edge.mk "B" "C" "e2"] ∧
      ([Edge.mk "A" "B" "e1", Edge.mk "B" "C" "e2"] : List Edge).Perm
        [Edge.mk "B" "C" "e2", Edge.mk "A" "B" "e1"]) ∧
    is_dag [Node.mk "A", Node.mk "B", Node.mk "C"]
        [Edge.mk "B" "C" "e2", Edge.mk "A" "B" "e1"] =
      is_dag [Node.mk "A", Node.mk "B", Node.mk "C"]
        [Edge.mk "A" "B" "e1", Edge.mk "B" "C" "e2"] :=
  ⟨⟨by decide, by decide, by decide⟩, claim_C8 _ _ _ (by decide) (by decide) (by decide)⟩

/-- C9: repeated edges are counted once each: after a successful build,
the stored in-degree of every declared identifier is exactly the number
of edge occurrences targeting it; and duplicating any edge occurrence in
the edge list never changes the verdict. -/
theorem claim_C9 (nodes : List Node) (edges : List Edge)
    (hnd : (nodes.map Node.id).Nodup) (hWF : WellFormed nodes edges) :
    (∀ adj deg, buildMaps nodes edges = some (adj, deg) →
      ∀ t ∈ nodes.map Node.id, dictFind deg t = some (indeg edges t)) ∧
    (∀ l1 l2 e, edges = l1 ++ e :: l2 →
      is_dag nodes (l1 ++ e :: e :: l2) = is_dag nodes edges) := by
  constructor
  · intro adj deg hbd t ht
    have hWF' : ∀ e ∈ edges,
        e.source ∈ dictKeys (dictInit (nodes.map Node.id) ([] : List String)) ∧
        e.target ∈ dictKeys (dictInit (nodes.map Node.id) (0 : Int)) :=
      fun e he => ⟨(mem_dictKeys_dictInit _ _ _).mpr (hWF e he).1,
        (mem_dictKeys_dictInit _ _ _).mpr (hWF e he).2⟩
    obtain ⟨adj1, deg1, hsome, _, _, _, hfd⟩ := addEdges_spec edges _ _ hWF'
    have hbd1 : buildMaps nodes edges = some (adj1, deg1) := hsome
    have hpair := Option.some.inj (hbd1.symm.trans hbd)
    have hdeq : deg1 = deg := congrArg Prod.snd hpair
    subst hdeq
    have h0 : dictFind (dictInit (nodes.map Node.id) (0 : Int)) t = some 0 := by
      rw [dictFind_dictInit, if_pos ht]
    rw [hfd t 0 h0]
    congr 1
    unfold indeg
    ring
  · intro l1 l2 e heq
    refine is_dag_congr_mem nodes (l1 ++ e :: e :: l2) edges hnd hWF ?_
    intro x
    subst heq
    simp only [List.mem_append, List.mem_cons]
    tauto

theorem claim_C9_witness :
    (([Node.mk "A", Node.mk "B"].map Node.id).Nodup ∧
      WellFormed [Node.mk "A", Node.mk "B"] [Edge.mk "A" "B" "e1"]) ∧
    is_dag [Node.mk "A", Node.mk "B"] ([] ++ Edge.mk "A" "B" "e1" ::
        Edge.mk "A" "B" "e1" :: []) =
      is_dag [Node.mk "A", Node.mk "B"] [Edge.mk "A" "B" "e1"] :=
  ⟨⟨by decide, by decide⟩,
    (claim_C9 _ _ (by decide) (by decide)).2 [] [] (Edge.mk "A" "B" "e1") rfl⟩

/-- C10: every accepted pipeline request is answered with
`num_nodes = len(nodes)`, `num_edges = len(edges)`, and the `is_dag`
verdict of those very nodes and edges. -/
theorem claim_C10 (p : Pipeline) (r : AnalysisResult)
    (h : parse_pipeline p = some r) :
    r.num_nodes = p.nodes.length ∧ r.num_edges = p.edges.length ∧
      is_dag p.nodes p.edges = some r.is_dag := by
  unfold parse_pipeline at h
  cases hd : is_dag p.nodes p.edges with
  | none =>
    rw [hd] at h
    simp at h
  | some b =>
    rw [hd] at h
    have h2 : AnalysisResult.mk p.nodes.length p.edges.length b = r :=
      Option.some.inj h
    rw [← h2]
    exact ⟨rfl, rfl, rfl⟩

theorem claim_C10_witness :
    parse_pipeline (Pipeline.mk [Node.mk "A"] []) =
      some (AnalysisResult.mk 1 0 true) ∧
    ((AnalysisResult.mk 1 0 true).num_nodes =
        (Pipeline.mk [Node.mk "A"] []).nodes.length ∧
      (AnalysisResult.mk 1 0 true).num_edges =
        (Pipeline.mk [Node.mk "A"] []).edges.length ∧
      is_dag (Pipeline.mk [Node.mk "A"] []).nodes
          (Pipeline.mk [Node.mk "A"] []).edges =
        some (AnalysisResult.mk 1 0 true).is_dag) :=
  ⟨by decide, claim_C10 _ _ (by decide)⟩

end FlowForge
